import Mathlib

/-!
Verification development for the horacequant repository.

The repository couples a Vue 3 charting frontend (under frontend/) with a
TDX-formula screening backend.  The frontend components are embedded here
directly from their TypeScript source; the screening core (formula
evaluator, indicator derivation, orchestrator, lock) is not present in the
source tree, so those parts are modelled from the specification, as marked
on each definition.
-/

namespace HQ

/-! ## JavaScript numeric values

Shallow model of the JavaScript numbers flowing through the chart
components: a number is either a finite value (modelled as a rational),
NaN, or one of the two infinities.  Signed zero is not distinguished; the
code paths verified below never divide by zero, so the distinction is
never consulted. -/

/-- A JavaScript number: finite, NaN, or an infinity. -/
inductive JsNum where
  | finite (q : ℚ)
  | nan
  | posInf
  | negInf
deriving DecidableEq

/-- A JavaScript value reaching the chart helpers: KlinePoint fields are
typed number-or-null, and optional chaining on a missing bar produces
undefined. -/
inductive JsVal where
  | vnull
  | vundefined
  | vnum (x : JsNum)
deriving DecidableEq

/-- The Number.isFinite test. -/
def JsNum.isFinite : JsNum → Bool
  | .finite _ => true
  | _ => false

/-- The Number(v) coercion on this value domain: Number(null) is 0,
Number(undefined) is NaN, and a number coerces to itself. -/
def jsNumber : JsVal → JsNum
  | .vnull => .finite 0
  | .vundefined => .nan
  | .vnum x => x

/-- IEEE subtraction on the JsNum domain. -/
def JsNum.sub : JsNum → JsNum → JsNum
  | .finite a, .finite b => .finite (a - b)
  | .posInf, .finite _ => .posInf
  | .posInf, .negInf => .posInf
  | .negInf, .finite _ => .negInf
  | .negInf, .posInf => .negInf
  | .finite _, .posInf => .negInf
  | .finite _, .negInf => .posInf
  | _, _ => .nan

/-- IEEE multiplication on the JsNum domain (sign of an infinite product
follows the sign of the finite factor; infinity times zero is NaN). -/
def JsNum.mul : JsNum → JsNum → JsNum
  | .finite a, .finite b => .finite (a * b)
  | .posInf, .finite b => if b = 0 then .nan else if 0 < b then .posInf else .negInf
  | .finite a, .posInf => if a = 0 then .nan else if 0 < a then .posInf else .negInf
  | .negInf, .finite b => if b = 0 then .nan else if 0 < b then .negInf else .posInf
  | .finite a, .negInf => if a = 0 then .nan else if 0 < a then .negInf else .posInf
  | .posInf, .posInf => .posInf
  | .negInf, .negInf => .posInf
  | .posInf, .negInf => .negInf
  | .negInf, .posInf => .negInf
  | _, _ => .nan

/-- IEEE division on the JsNum domain (division of a nonzero finite value
by zero gives a signed infinity; zero by zero gives NaN). -/
def JsNum.div : JsNum → JsNum → JsNum
  | .finite a, .finite b =>
      if b = 0 then (if a = 0 then .nan else if 0 < a then .posInf else .negInf)
      else .finite (a / b)
  | .posInf, .finite b => if 0 ≤ b then .posInf else .negInf
  | .negInf, .finite b => if 0 ≤ b then .negInf else .posInf
  | .finite _, .posInf => .finite 0
  | .finite _, .negInf => .finite 0
  | _, _ => .nan

/-! ## KlineMultiPanel.vue: the coercion helper n

Embedded from frontend/src/components/KlineMultiPanel.vue: the helper
tests null and undefined first, coerces with Number, and keeps the result
only when it is finite. -/

/-- The coercion helper n of KlineMultiPanel.vue: null and undefined map
to null (none); any other value is coerced and kept only when finite. -/
def panelN (v : JsVal) : Option ℚ :=
  match v with
  | .vnull => none
  | .vundefined => none
  | .vnum x =>
      match x with
      | .finite q => some q
      | _ => none

/-- An indicator series column as built in the option computation of
KlineMultiPanel.vue: the pointwise image of the coercion helper. -/
def seriesOf (l : List JsVal) : List (Option ℚ) := l.map panelN

/-! ## StockChartCard.vue: the header snapshot

Embedded from frontend/src/components/StockChartCard.vue.  Its local
helper n2 differs from the panel helper: it returns NaN, not null, for a
non-finite coercion, and it does not test null first (so Number(null) = 0
flows through). -/

/-- The coercion helper n of StockChartCard.vue: coerce with Number and
replace a non-finite result with NaN. -/
def cardN (v : JsVal) : JsNum :=
  match jsNumber v with
  | .finite q => .finite q
  | _ => .nan

/-- The fields of one KlinePoint consulted by the snapshot computation. -/
structure KPoint where
  close : JsVal
  changeAmount : JsVal
  pctChange : JsVal
deriving DecidableEq

/-- Optional-chain field access: a missing bar reads as undefined. -/
def kfield (o : Option KPoint) (f : KPoint → JsVal) : JsVal :=
  match o with
  | none => .vundefined
  | some p => f p

/-- The last element of the daily list, as read by d[d.length - 1]. -/
def lastBar (d : List KPoint) : Option KPoint := d.getLast?

/-- The second-to-last element, as read by d[d.length - 2]. -/
def prevBar (d : List KPoint) : Option KPoint := d.dropLast.getLast?

/-- The change field of the snap computed property: close minus previous
close when both are finite, otherwise the server-supplied change_amount
field of the last bar. -/
def snapChange (d : List KPoint) : JsNum :=
  let close := cardN (kfield (lastBar d) KPoint.close)
  let prevClose := cardN (kfield (prevBar d) KPoint.close)
  if close.isFinite && prevClose.isFinite then close.sub prevClose
  else cardN (kfield (lastBar d) KPoint.changeAmount)

/-- The pct field of the snap computed property: change divided by the
previous close and scaled to percent when both closes are finite and the
previous close is nonzero, otherwise the server-supplied pct_change field
of the last bar. -/
def snapPct (d : List KPoint) : JsNum :=
  let close := cardN (kfield (lastBar d) KPoint.close)
  let prevClose := cardN (kfield (prevBar d) KPoint.close)
  let change := snapChange d
  if close.isFinite && prevClose.isFinite && !(decide (prevClose = .finite 0)) then
    (change.div prevClose).mul (.finite 100)
  else cardN (kfield (lastBar d) KPoint.pctChange)

/-! ## Formula evaluator scalar semantics

Modelled from the spec: the expression evaluator of the screening core is
not present under src/ (the repository ships only the frontend and the
README describing the backend), so its per-position numeric semantics are
modelled from spec section 4.2: division by zero or by a NaN denominator
yields NaN, never an error and never an infinity, and comparisons against
NaN are always false. -/

/-- Modelled from the spec: the evaluator's numeric value domain — an
IEEE-style float able to carry NaN or an infinity.  The spec requires
that evaluation itself never produces an infinity. -/
inductive TVal where
  | num (q : ℚ)
  | nan
  | posInf
  | negInf
deriving DecidableEq

/-- Modelled from the spec: evaluator addition; NaN propagates and no
operation on a non-finite operand produces an infinity. -/
def TVal.add : TVal → TVal → TVal
  | .num a, .num b => .num (a + b)
  | _, _ => .nan

/-- Modelled from the spec: evaluator subtraction. -/
def TVal.sub : TVal → TVal → TVal
  | .num a, .num b => .num (a - b)
  | _, _ => .nan

/-- Modelled from the spec: evaluator multiplication. -/
def TVal.mul : TVal → TVal → TVal
  | .num a, .num b => .num (a * b)
  | _, _ => .nan

/-- Modelled from the spec: evaluator division — a zero or NaN
denominator yields NaN, never an error and never an infinity. -/
def TVal.div : TVal → TVal → TVal
  | .num a, .num b => if b = 0 then .nan else .num (a / b)
  | _, _ => .nan

/-- Modelled from the spec: a comparison produces 1 or 0; a comparison
with a non-finite operand (in particular NaN) is false. -/
def TVal.cmp (f : ℚ → ℚ → Bool) : TVal → TVal → TVal
  | .num a, .num b => if f a b then .num 1 else .num 0
  | _, _ => .num 0

/-- Modelled from the spec: numeric truthiness for the boolean
connectives — nonzero is true, NaN is false. -/
def TVal.truthy : TVal → Bool
  | .num q => decide (q ≠ 0)
  | _ => false

/-- Modelled from the spec: the expression grammar of section 4.1 at one
bar position — literals, named column references, unary minus, the four
arithmetic operators, the five comparisons, and the boolean
connectives. -/
inductive Expr where
  | lit (q : ℚ)
  | var (s : String)
  | neg (a : Expr)
  | add (a b : Expr)
  | sub (a b : Expr)
  | mul (a b : Expr)
  | div (a b : Expr)
  | lt (a b : Expr)
  | gt (a b : Expr)
  | le (a b : Expr)
  | ge (a b : Expr)
  | eqc (a b : Expr)
  | andB (a b : Expr)
  | orB (a b : Expr)

/-- Modelled from the spec: the evaluator at one position.  It is a total
function: no evaluation step raises. -/
def evalE (env : String → TVal) : Expr → TVal
  | .lit q => .num q
  | .var s => env s
  | .neg a => TVal.sub (.num 0) (evalE env a)
  | .add a b => TVal.add (evalE env a) (evalE env b)
  | .sub a b => TVal.sub (evalE env a) (evalE env b)
  | .mul a b => TVal.mul (evalE env a) (evalE env b)
  | .div a b => TVal.div (evalE env a) (evalE env b)
  | .lt a b => TVal.cmp (fun x y => decide (x < y)) (evalE env a) (evalE env b)
  | .gt a b => TVal.cmp (fun x y => decide (y < x)) (evalE env a) (evalE env b)
  | .le a b => TVal.cmp (fun x y => decide (x ≤ y)) (evalE env a) (evalE env b)
  | .ge a b => TVal.cmp (fun x y => decide (y ≤ x)) (evalE env a) (evalE env b)
  | .eqc a b => TVal.cmp (fun x y => decide (x = y)) (evalE env a) (evalE env b)
  | .andB a b => if (evalE env a).truthy && (evalE env b).truthy then .num 1 else .num 0
  | .orB a b => if (evalE env a).truthy || (evalE env b).truthy then .num 1 else .num 0

/-! ## Column built-ins

Modelled from the spec: the vectorized built-ins of section 4.2 over a
bar window.  A column entry is NaN-capable; following design note 9 the
recursive functions are an explicit fold with an Option carry.  In this
embedding a column is a list of Option rationals, none standing for
NaN. -/

/-- A NaN-capable column: none is NaN. -/
abbrev Col := List (Option ℚ)

/-- Modelled from the spec: NaN-capable division shared by the column
operators — a zero or NaN denominator yields NaN. -/
def divNaN (a b : Option ℚ) : Option ℚ :=
  match a, b with
  | some x, some y => if y = 0 then none else some (x / y)
  | _, _ => none

/-- Modelled from the spec: REF(X, N) shifts X backward N bars; positions
before the window start are NaN. -/
def refCol (n : ℕ) (xs : Col) : Col :=
  (List.range xs.length).map fun i => if n ≤ i then xs.getD (i - n) none else none

/-- The window of the last min(i + 1, n) entries ending at index i. -/
def windowAt (n : ℕ) (xs : Col) (i : ℕ) : Col :=
  (xs.take (i + 1)).drop (i + 1 - n)

/-- Modelled from the spec: MA(X, N) — simple moving average over N bars;
positions with fewer than N bars of history, or any NaN in the window,
are NaN. -/
def maCol (n : ℕ) (xs : Col) : Col :=
  (List.range xs.length).map fun i =>
    if i + 1 < n then none
    else
      match (windowAt n xs i).mapM id with
      | none => none
      | some ws => some (ws.sum / (n : ℚ))

/-- Modelled from the spec: HHV(X, N) — rolling max over min(i + 1, N)
bars, ignoring NaN inputs unless the whole window is NaN. -/
def hhvCol (n : ℕ) (xs : Col) : Col :=
  (List.range xs.length).map fun i =>
    match (windowAt n xs i).filterMap id with
    | [] => none
    | a :: as => some (as.foldl max a)

/-- Modelled from the spec: LLV(X, N) — rolling min, dual to HHV. -/
def llvCol (n : ℕ) (xs : Col) : Col :=
  (List.range xs.length).map fun i =>
    match (windowAt n xs i).filterMap id with
    | [] => none
    | a :: as => some (as.foldl min a)

/-- Modelled from the spec (design note 9): one step of a recursive
smoothing fold with an Option carry.  An empty carry is seeded by the
first finite input (leading NaNs stay NaN); a NaN input after seeding
keeps the carried value (gap backfill per the README). -/
def recStep (f : ℚ → ℚ → ℚ) (y x : Option ℚ) : Option ℚ :=
  match y, x with
  | none, x => x
  | some yv, some xv => some (f yv xv)
  | some yv, none => some yv

/-- Modelled from the spec: the carried fold producing a column. -/
def recColAux (f : ℚ → ℚ → ℚ) (y : Option ℚ) : Col → Col
  | [] => []
  | x :: xs => recStep f y x :: recColAux f (recStep f y x) xs

/-- Modelled from the spec: SMA(X, N, M), the TDX recursive smoothing
Y = (M * X + (N - M) * Yprev) / N as a seeded fold. -/
def smaCol (N M : ℚ) (xs : Col) : Col :=
  recColAux (fun y x => (M * x + (N - M) * y) / N) none xs

/-- Modelled from the spec: EMA(X, N), the recursive smoothing
Y = (2 * X + (N - 1) * Yprev) / (N + 1), same seeding as SMA. -/
def emaCol (N : ℚ) (xs : Col) : Col :=
  recColAux (fun y x => (2 * x + (N - 1) * y) / (N + 1)) none xs

/-- The recursion of the spec, written as the spec states it: given the
seed Yprev, each output is Y = (M * X + (N - M) * Yprev) / N and becomes
the next Yprev.  Used as the reference to compare the SMA built-in
against. -/
def smaSpecRec (N M : ℚ) (yprev : ℚ) : List ℚ → List ℚ
  | [] => []
  | x :: xs =>
      ((M * x + (N - M) * yprev) / N) :: smaSpecRec N M ((M * x + (N - M) * yprev) / N) xs

/-! ## Indicator derivation: KDJ(9, 3, 3)

Modelled from the spec: the indicator derivation layer is a fixed
built-in formula computed with the same recursive-function semantics as
the evaluator.  RSV divides the distance of the close from the rolling
low by the rolling range HHV − LLV; a zero range means a flat window and
RSV is then defined as 50. -/

/-- One OHLC bar of the archive, restricted to the fields KDJ consults.
Stored prices are finite. -/
structure Bar where
  high : ℚ
  low : ℚ
  close : ℚ
deriving DecidableEq

/-- Max of a list of finite values (0 on an empty list; every use below
is on a nonempty window). -/
def maxQ : List ℚ → ℚ
  | [] => 0
  | a :: as => as.foldl max a

/-- Min of a list of finite values. -/
def minQ : List ℚ → ℚ
  | [] => 0
  | a :: as => as.foldl min a

/-- The finite window of the last min(i + 1, n) entries ending at i. -/
def winF (n : ℕ) (xs : List ℚ) (i : ℕ) : List ℚ :=
  (xs.take (i + 1)).drop (i + 1 - n)

/-- Modelled from the spec: one bar's RSV.  When HHV − LLV is zero the
bar is flat and RSV is 50; otherwise it is the NaN-capable division of
(close − LLV) * 100 by (HHV − LLV). -/
def rsvAt (c ll hh : ℚ) : Option ℚ :=
  if hh - ll = 0 then some 50 else divNaN (some ((c - ll) * 100)) (some (hh - ll))

/-- Modelled from the spec: the rolling 9-bar HHV of the highs at each
index. -/
def kdjHHV (bars : List Bar) (i : ℕ) : ℚ := maxQ (winF 9 (bars.map Bar.high) i)

/-- Modelled from the spec: the rolling 9-bar LLV of the lows at each
index. -/
def kdjLLV (bars : List Bar) (i : ℕ) : ℚ := minQ (winF 9 (bars.map Bar.low) i)

/-- Modelled from the spec: the RSV column of KDJ(9, 3, 3). -/
def kdjRSV (bars : List Bar) : Col :=
  (List.range bars.length).map fun i =>
    rsvAt ((bars.map Bar.close).getD i 0) (kdjLLV bars i) (kdjHHV bars i)

/-- Modelled from the spec: K = SMA(RSV, 3, 1). -/
def kdjK (bars : List Bar) : Col := smaCol 3 1 (kdjRSV bars)

/-- Modelled from the spec: D = SMA(K, 3, 1). -/
def kdjD (bars : List Bar) : Col := smaCol 3 1 (kdjK bars)

/-- Modelled from the spec: J = 3K − 2D pointwise, NaN when either input
is NaN. -/
def kdjJ (bars : List Bar) : Col :=
  List.zipWith
    (fun k d =>
      match k, d with
      | some kv, some dv => some (3 * kv - 2 * dv)
      | _, _ => none)
    (kdjK bars) (kdjD bars)

/-! ## Vectorized formula evaluation and the screening orchestrator

Modelled from the spec: a parsed rule evaluated over one symbol's bar
window, guarded by the InsufficientHistory check, and the per-run state
machine ResolveUniverse → EvaluateEach → Aggregate.  Symbol codes are the
numeric A-share codes, modelled as naturals so that code-ascending order
is the numeric order. -/

/-- Pointwise NaN-capable addition. -/
def addN (a b : Option ℚ) : Option ℚ :=
  match a, b with
  | some x, some y => some (x + y)
  | _, _ => none

/-- Pointwise NaN-capable subtraction. -/
def subN (a b : Option ℚ) : Option ℚ :=
  match a, b with
  | some x, some y => some (x - y)
  | _, _ => none

/-- Pointwise NaN-capable multiplication. -/
def mulN (a b : Option ℚ) : Option ℚ :=
  match a, b with
  | some x, some y => some (x * y)
  | _, _ => none

/-- Pointwise comparison: 1 or 0 on finite operands, false (0) on a NaN
operand. -/
def cmpN (f : ℚ → ℚ → Bool) (a b : Option ℚ) : Option ℚ :=
  match a, b with
  | some x, some y => if f x y then some 1 else some 0
  | _, _ => some 0

/-- Modelled from the spec: the expression grammar of a rule over a bar
window — price columns, literals, the section 4.2 built-ins, arithmetic
and comparisons. -/
inductive FExpr where
  | close
  | high
  | low
  | lit (q : ℚ)
  | ref (x : FExpr) (n : ℕ)
  | ma (x : FExpr) (n : ℕ)
  | llv (x : FExpr) (n : ℕ)
  | hhv (x : FExpr) (n : ℕ)
  | sma (x : FExpr) (n m : ℕ)
  | ema (x : FExpr) (n : ℕ)
  | add (a b : FExpr)
  | sub (a b : FExpr)
  | mul (a b : FExpr)
  | div (a b : FExpr)
  | lt (a b : FExpr)
  | gt (a b : FExpr)

/-- Modelled from the spec: the vectorized evaluator, producing one
NaN-capable column aligned with the bar window. -/
def evalCol (bars : List Bar) : FExpr → Col
  | .close => bars.map fun b => some b.close
  | .high => bars.map fun b => some b.high
  | .low => bars.map fun b => some b.low
  | .lit q => bars.map fun _ => some q
  | .ref x n => refCol n (evalCol bars x)
  | .ma x n => maCol n (evalCol bars x)
  | .llv x n => llvCol n (evalCol bars x)
  | .hhv x n => hhvCol n (evalCol bars x)
  | .sma x n m => smaCol n m (evalCol bars x)
  | .ema x n => emaCol n (evalCol bars x)
  | .add a b => List.zipWith addN (evalCol bars a) (evalCol bars b)
  | .sub a b => List.zipWith subN (evalCol bars a) (evalCol bars b)
  | .mul a b => List.zipWith mulN (evalCol bars a) (evalCol bars b)
  | .div a b => List.zipWith divNaN (evalCol bars a) (evalCol bars b)
  | .lt a b =>
      List.zipWith (cmpN fun x y => decide (x < y)) (evalCol bars a) (evalCol bars b)
  | .gt a b =>
      List.zipWith (cmpN fun x y => decide (y < x)) (evalCol bars a) (evalCol bars b)

/-- Modelled from the spec: the longest lookback a rule needs — the
number of bars required for a valid output at the last position
(MA(CLOSE, 60) needs 60 bars). -/
def maxLookback : FExpr → ℕ
  | .close => 1
  | .high => 1
  | .low => 1
  | .lit _ => 1
  | .ref x n => maxLookback x + n
  | .ma x n => max (maxLookback x) n
  | .llv x n => max (maxLookback x) n
  | .hhv x n => max (maxLookback x) n
  | .sma x _ _ => maxLookback x
  | .ema x _ => maxLookback x
  | .add a b => max (maxLookback a) (maxLookback b)
  | .sub a b => max (maxLookback a) (maxLookback b)
  | .mul a b => max (maxLookback a) (maxLookback b)
  | .div a b => max (maxLookback a) (maxLookback b)
  | .lt a b => max (maxLookback a) (maxLookback b)
  | .gt a b => max (maxLookback a) (maxLookback b)

/-- Modelled from the spec: the evaluation failure taxonomy of section
7. -/
inductive EvalErr where
  | parseError
  | unknownFunction
  | insufficientHistory
  | cyclicReference
deriving DecidableEq

/-- The selection signal: the final column's value at the evaluation
date (the last bar), true when finite and nonzero. -/
def selectedAtLast (col : Col) : Bool :=
  match col.getLast? with
  | some (some q) => decide (q ≠ 0)
  | _ => false

/-- Modelled from the spec: evaluate a rule over one symbol's window —
a window shorter than the longest lookback fails with
InsufficientHistory instead of evaluating. -/
def evalRule (ast : FExpr) (bars : List Bar) : Except EvalErr Bool :=
  if bars.length < maxLookback ast then Except.error .insufficientHistory
  else Except.ok (selectedAtLast (evalCol bars ast))

/-- One symbol of the resolved universe: its numeric code and its bar
window. -/
structure SymbolData where
  code : ℕ
  bars : List Bar
deriving DecidableEq

/-- A symbol is kept exactly when its evaluation succeeds with true; any
per-symbol failure (in particular InsufficientHistory) excludes it
without failing the run. -/
def keepSymbol (ast : FExpr) (sd : SymbolData) : Bool :=
  match evalRule ast sd.bars with
  | .ok b => b
  | .error _ => false

/-- Modelled from the spec: the EvaluateEach step — evaluate each symbol
independently and keep the selected ones. -/
def evaluateEach (ast : FExpr) (u : List SymbolData) : List SymbolData :=
  u.filter (keepSymbol ast)

/-- Modelled from the spec: the Aggregate step — order the selected
symbols by symbol code ascending. -/
def aggregate (sel : List SymbolData) : List ℕ :=
  List.insertionSort (· ≤ ·) (sel.map SymbolData.code)

/-- Modelled from the spec: one screening run over a resolved universe,
emitting the ordered PickResult membership. -/
def runScreen (ast : FExpr) (u : List SymbolData) : List ℕ :=
  aggregate (evaluateEach ast u)

/-! ## Serving-layer pagination

Modelled from the spec: the serving layer pages a fixed PickResult with
cursor = last emitted symbol code and a limit capped at 50. -/

/-- Modelled from the spec: one page — the first min(limit, 50) codes
strictly after the cursor (from the start when the cursor is empty). -/
def pageAfter (r : List ℕ) (c : Option ℕ) (limit : ℕ) : List ℕ :=
  (match c with
   | none => r
   | some x => r.filter fun y => decide (x < y)).take (min limit 50)

/-- Modelled from the spec: fuelled successive retrieval — fetch a page,
advance the cursor to its last code, stop on an empty page. -/
def fetchFrom (r : List ℕ) (limit : ℕ) : ℕ → Option ℕ → List ℕ
  | 0, _ => []
  | fuel + 1, c =>
      let p := pageAfter r c limit
      if h : p = [] then [] else p ++ fetchFrom r limit fuel (some (p.getLast h))

/-- Modelled from the spec: paged retrieval of the whole result starting
from the empty cursor. -/
def fetchAll (r : List ℕ) (limit : ℕ) : List ℕ :=
  fetchFrom r limit (r.length + 1) none

/-! ## Pipeline mutual exclusion

Modelled from the spec: the worker's process-wide advisory lock must
guarantee at most one concurrent full pipeline run.  A run atomically
attempts the lock, performs its cache writes while holding it, and
releases it; a second run attempting the pipeline while the lock is held
observes ConcurrentRunConflict and exits immediately without side
effects.  Two invocations are executed under an arbitrary interleaving
schedule of atomic steps. -/

/-- One pipeline invocation: its program counter (0 = about to attempt
the lock, 1..k = performing its k cache writes, k + 1 = about to
release, k + 2 = completed), whether it observed ConcurrentRunConflict,
and how many writes it has performed. -/
structure RunSt where
  pc : ℕ
  conflicted : Bool
  writes : ℕ
deriving DecidableEq

/-- The shared state: the advisory lock's holder, if any, and the two
invocations. -/
structure Sys where
  lock : Option Bool
  r0 : RunSt
  r1 : RunSt
deriving DecidableEq

/-- A fresh invocation. -/
def initRun : RunSt := ⟨0, false, 0⟩

/-- The initial system: lock free, both invocations fresh. -/
def initSys : Sys := ⟨none, initRun, initRun⟩

/-- One atomic step of run 0: attempt the lock at pc 0 (observe the
conflict and stop if it is held), write at pc 1..k, release at
pc k + 1; a conflicted or completed run does nothing. -/
def step0 (k : ℕ) (s : Sys) : Sys :=
  if s.r0.conflicted then s
  else if s.r0.pc = 0 then
    match s.lock with
    | none => { s with lock := some false, r0 := { s.r0 with pc := 1 } }
    | some _ => { s with r0 := { s.r0 with conflicted := true } }
  else if s.r0.pc ≤ k then
    { s with r0 := { s.r0 with pc := s.r0.pc + 1, writes := s.r0.writes + 1 } }
  else if s.r0.pc = k + 1 then
    { s with lock := none, r0 := { s.r0 with pc := s.r0.pc + 1 } }
  else s

/-- Swap the roles of the two invocations (the lock holder flag swaps
with them). -/
def swapSys (s : Sys) : Sys := ⟨s.lock.map (fun b => !b), s.r1, s.r0⟩

/-- One atomic step of run 1: run 0's program with the roles swapped. -/
def step1 (k : ℕ) (s : Sys) : Sys := swapSys (step0 k (swapSys s))

/-- One scheduled step: false steps run 0, true steps run 1. -/
def stepRun (k : ℕ) (who : Bool) (s : Sys) : Sys :=
  if who then step1 k s else step0 k s

/-- Execute an interleaving schedule. -/
def exec (k : ℕ) : List Bool → Sys → Sys
  | [], s => s
  | w :: ws, s => exec k ws (stepRun k w s)

/-- The mutual-exclusion invariant: the lock is held by a run exactly
while that run is between acquire and release, a conflicted run stopped
at pc 0 with no writes while the other run was active, and a run that
has not started has written nothing. -/
def SysInv (k : ℕ) (s : Sys) : Prop :=
  (s.lock = some false ↔
    s.r0.conflicted = false ∧ 1 ≤ s.r0.pc ∧ s.r0.pc ≤ k + 1) ∧
  (s.lock = some true ↔
    s.r1.conflicted = false ∧ 1 ≤ s.r1.pc ∧ s.r1.pc ≤ k + 1) ∧
  (s.r0.conflicted = true →
    s.r0.pc = 0 ∧ s.r0.writes = 0 ∧ s.r1.conflicted = false ∧ 1 ≤ s.r1.pc) ∧
  (s.r1.conflicted = true →
    s.r1.pc = 0 ∧ s.r1.writes = 0 ∧ s.r0.conflicted = false ∧ 1 ≤ s.r0.pc) ∧
  (s.r0.pc = 0 → s.r0.writes = 0) ∧
  (s.r1.pc = 0 → s.r1.writes = 0)

/-! ## Picks query

Modelled from the spec: querying picks for a trade date with no
PickResult yet returns an empty, well-formed result rather than an error
or 404, so a consumer can distinguish not-yet-computed from failed. -/

/-- Modelled from the spec: the picks response — a well-formed payload
with the item list, or an error. -/
inductive PicksResponse where
  | ok (items : List ℕ)
  | err (message : String)
deriving DecidableEq

/-- Modelled from the spec: the picks query against a store mapping a
trade date to its PickResult, if the per-date result table exists — an
absent table answers an empty ok list. -/
def picksQuery (store : ℕ → Option (List ℕ)) (d : ℕ) : PicksResponse :=
  match store d with
  | none => .ok []
  | some items => .ok items

/-! ## Theorems -/

theorem recColAux_leading (f : ℚ → ℚ → ℚ) (k : ℕ) (rest : Col) :
    recColAux f none (List.replicate k none ++ rest) =
      List.replicate k none ++ recColAux f none rest := by
  induction k with
  | zero => simp
  | succ k ih => simp [List.replicate_succ, recColAux, recStep, ih]

theorem smaCol_some_aux (N M : ℚ) (y : ℚ) (xs : List ℚ) :
    recColAux (fun yv x => (M * x + (N - M) * yv) / N) (some y) (xs.map some) =
      (smaSpecRec N M y xs).map some := by
  induction xs generalizing y with
  | nil => simp [recColAux, smaSpecRec]
  | cons x xs ih => simp [recColAux, recStep, smaSpecRec, ih]

theorem getD_map_range (g : ℕ → Option ℚ) (n i : ℕ) (hi : i < n) :
    ((List.range n).map g).getD i none = g i := by
  rw [List.getD_eq_getElem?_getD]
  simp [List.getElem?_map, List.getElem?_range, hi]

theorem rsvAt_isSome (c ll hh : ℚ) : (rsvAt c ll hh).isSome = true := by
  unfold rsvAt divNaN
  split
  · rfl
  · next h => simp [h]

theorem recColAux_all_isSome (f : ℚ → ℚ → ℚ) (xs : Col)
    (hxs : ∀ x ∈ xs, x.isSome = true) (y : Option ℚ) :
    ∀ z ∈ recColAux f y xs, z.isSome = true := by
  induction xs generalizing y with
  | nil => intro z hz; simp [recColAux] at hz
  | cons x xs ih =>
    intro z hz
    obtain ⟨v, hv⟩ := Option.isSome_iff_exists.mp (hxs x (by simp))
    rw [recColAux] at hz
    rcases List.mem_cons.mp hz with h | h
    · subst h; cases y <;> simp [recStep, hv]
    · exact ih (fun a ha => hxs a (List.mem_cons_of_mem _ ha)) _ _ h

theorem zipWith_all_isSome (f : ℚ → ℚ → ℚ) (ks ds : Col)
    (hk : ∀ v ∈ ks, v.isSome = true) (hd : ∀ v ∈ ds, v.isSome = true) :
    ∀ v ∈ List.zipWith
      (fun k d =>
        match k, d with
        | some kv, some dv => some (f kv dv)
        | _, _ => none) ks ds, v.isSome = true := by
  induction ks generalizing ds with
  | nil => intro v hv; simp at hv
  | cons k ks ih =>
    cases ds with
    | nil => intro v hv; simp at hv
    | cons d ds =>
      intro v hv
      rcases List.mem_cons.mp hv with h | h
      · subst h
        obtain ⟨kv, hkv⟩ := Option.isSome_iff_exists.mp (hk k (by simp))
        obtain ⟨dv, hdv⟩ := Option.isSome_iff_exists.mp (hd d (by simp))
        simp [hkv, hdv]
      · exact ih ds (fun a ha => hk a (by simp [ha]))
          (fun a ha => hd a (by simp [ha])) v h

theorem TVal.add_not_inf (a b : TVal) :
    TVal.add a b ≠ .posInf ∧ TVal.add a b ≠ .negInf := by
  cases a <;> cases b <;> simp [TVal.add]

theorem TVal.sub_not_inf (a b : TVal) :
    TVal.sub a b ≠ .posInf ∧ TVal.sub a b ≠ .negInf := by
  cases a <;> cases b <;> simp [TVal.sub]

theorem TVal.mul_not_inf (a b : TVal) :
    TVal.mul a b ≠ .posInf ∧ TVal.mul a b ≠ .negInf := by
  cases a <;> cases b <;> simp [TVal.mul]

theorem TVal.div_not_inf (a b : TVal) :
    TVal.div a b ≠ .posInf ∧ TVal.div a b ≠ .negInf := by
  cases a <;> cases b <;> simp [TVal.div] <;> split <;> simp

theorem TVal.cmp_not_inf (f : ℚ → ℚ → Bool) (a b : TVal) :
    TVal.cmp f a b ≠ .posInf ∧ TVal.cmp f a b ≠ .negInf := by
  cases a <;> cases b <;> simp [TVal.cmp] <;> split <;> simp

theorem TVal.ite01_not_inf (c : Prop) [Decidable c] :
    (if c then TVal.num 1 else TVal.num 0) ≠ .posInf ∧
      (if c then TVal.num 1 else TVal.num 0) ≠ .negInf := by
  split <;> simp

/-- C1: the SMA built-in computes the recursion
Y = (M * X + (N - M) * Yprev) / N with seed Y[0] = X[0] when X[0] is
finite; with k leading NaN inputs the first finite input seeds Y at its
own index, every index before it is NaN, and every index at or after it
is the correctly recursed finite value. -/
theorem C1_sma_recursion_and_seeding (N M : ℚ) (k : ℕ) (x0 : ℚ) (xs : List ℚ) :
    smaCol N M (List.replicate k none ++ (x0 :: xs).map some) =
      List.replicate k none ++ (x0 :: smaSpecRec N M x0 xs).map some := by
  rw [smaCol, recColAux_leading]
  congr 1
  simp [recColAux, recStep, smaCol_some_aux]

/-- C2: for every bar whose rolling HHV equals the rolling LLV (a flat
window, so the RSV denominator is zero), the RSV of that bar is 50 rather
than NaN or infinity, and every entry of the K, D and J columns is
finite. -/
theorem C2_kdj_flat50_finite (bars : List Bar) :
    (∀ i < bars.length, kdjHHV bars i = kdjLLV bars i →
      (kdjRSV bars).getD i none = some 50) ∧
    (∀ v ∈ kdjRSV bars, v.isSome = true) ∧
    (∀ v ∈ kdjK bars, v.isSome = true) ∧
    (∀ v ∈ kdjD bars, v.isSome = true) ∧
    (∀ v ∈ kdjJ bars, v.isSome = true) := by
  have hrsv : ∀ v ∈ kdjRSV bars, v.isSome = true := by
    intro v hv
    rw [kdjRSV] at hv
    obtain ⟨i, _, rfl⟩ := List.mem_map.mp hv
    exact rsvAt_isSome _ _ _
  have hK : ∀ v ∈ kdjK bars, v.isSome = true := by
    intro v hv
    rw [kdjK, smaCol] at hv
    exact recColAux_all_isSome _ _ hrsv none v hv
  have hD : ∀ v ∈ kdjD bars, v.isSome = true := by
    intro v hv
    rw [kdjD, smaCol] at hv
    exact recColAux_all_isSome _ _ hK none v hv
  refine ⟨?_, hrsv, hK, hD, ?_⟩
  · intro i hi hflat
    rw [kdjRSV, getD_map_range _ _ _ hi]
    simp [rsvAt, hflat, sub_self]
  · intro v hv
    rw [kdjJ] at hv
    exact zipWith_all_isSome (fun kv dv => 3 * kv - 2 * dv) _ _ hK hD v hv

/-- Witness for C2: a single flat bar with high = low = close = 5 has
RSV 50, and the K column's sole entry is finite. -/
theorem C2_kdj_flat50_finite_witness :
    (kdjRSV [⟨5, 5, 5⟩]).getD 0 none = some 50 ∧
    (some 50 : Option ℚ).isSome = true := by
  have h := C2_kdj_flat50_finite [⟨5, 5, 5⟩]
  refine ⟨h.1 0 (by norm_num) ?_, ?_⟩
  · norm_num [kdjHHV, kdjLLV, winF, maxQ, minQ]
  · refine h.2.2.1 (some 50) ?_
    norm_num [kdjK, kdjRSV, kdjHHV, kdjLLV, rsvAt, divNaN, winF, maxQ, minQ,
      smaCol, recColAux, recStep]

/-- C3: in the evaluator, division by a NaN or zero denominator yields
NaN; each of the five comparison operators yields false (0) on a NaN
operand; evaluation never produces an infinity when the environment holds
none; and the shared NaN-capable column division also yields NaN on a NaN
or zero denominator. -/
theorem C3_div_nan_comparisons :
    (∀ (env : String → TVal) (a b : Expr),
      (evalE env b = .nan ∨ evalE env b = .num 0) → evalE env (.div a b) = .nan) ∧
    (∀ (env : String → TVal) (a b : Expr),
      (evalE env a = .nan ∨ evalE env b = .nan) →
        evalE env (.lt a b) = .num 0 ∧ evalE env (.gt a b) = .num 0 ∧
        evalE env (.le a b) = .num 0 ∧ evalE env (.ge a b) = .num 0 ∧
        evalE env (.eqc a b) = .num 0) ∧
    (∀ (env : String → TVal) (e : Expr),
      (∀ s, env s ≠ .posInf ∧ env s ≠ .negInf) →
        evalE env e ≠ .posInf ∧ evalE env e ≠ .negInf) ∧
    (∀ a : Option ℚ, divNaN a none = none ∧ divNaN a (some 0) = none) := by
  refine ⟨?_, ?_, ?_, ?_⟩
  · intro env a b h
    show TVal.div (evalE env a) (evalE env b) = .nan
    rcases h with h | h <;> rw [h] <;> cases evalE env a <;> simp [TVal.div]
  · intro env a b h
    refine ⟨?_, ?_, ?_, ?_, ?_⟩ <;>
      · show TVal.cmp _ (evalE env a) (evalE env b) = .num 0
        rcases h with h | h <;> rw [h] <;>
          first
            | (cases evalE env b <;> simp [TVal.cmp])
            | (cases evalE env a <;> simp [TVal.cmp])
  · intro env e h
    cases e with
    | lit q => simp [evalE]
    | var s => exact h s
    | neg a => exact TVal.sub_not_inf _ _
    | add a b => exact TVal.add_not_inf _ _
    | sub a b => exact TVal.sub_not_inf _ _
    | mul a b => exact TVal.mul_not_inf _ _
    | div a b => exact TVal.div_not_inf _ _
    | lt a b => exact TVal.cmp_not_inf _ _ _
    | gt a b => exact TVal.cmp_not_inf _ _ _
    | le a b => exact TVal.cmp_not_inf _ _ _
    | ge a b => exact TVal.cmp_not_inf _ _ _
    | eqc a b => exact TVal.cmp_not_inf _ _ _
    | andB a b => exact TVal.ite01_not_inf _
    | orB a b => exact TVal.ite01_not_inf _
  · intro a
    cases a <;> simp [divNaN]

/-- Witness for C3: at concrete inputs — 1 divided by the literal 0 is
NaN, a comparison on a NaN variable is false, a division over a finite
environment is not an infinity, and the column division of 1 by 0 is
NaN. -/
theorem C3_div_nan_comparisons_witness :
    evalE (fun _ => .nan) (.div (.lit 1) (.lit 0)) = .nan ∧
    evalE (fun _ => .nan) (.lt (.var "x") (.lit 1)) = .num 0 ∧
    evalE (fun _ => .num 7) (.div (.lit 1) (.var "y")) ≠ .posInf ∧
    divNaN (some 1) (some 0) = none := by
  obtain ⟨h1, h2, h3, h4⟩ := C3_div_nan_comparisons
  refine ⟨h1 (fun _ => .nan) (.lit 1) (.lit 0) (Or.inr rfl),
    (h2 (fun _ => .nan) (.var "x") (.lit 1) (Or.inl rfl)).1,
    (h3 (fun _ => .num 7) (.div (.lit 1) (.var "y")) ?_).1, (h4 (some 1)).2⟩
  intro s
  exact ⟨by simp, by simp⟩

/-- C4: a screening run is a pure function of the rule and the input
bars, so re-running it over unchanged input is identical in membership
and ordering; the Aggregate step always emits the selected codes sorted
ascending, and as a permutation of the selected set. -/
theorem C4_runScreen_deterministic_sorted (ast : FExpr) (u : List SymbolData) :
    runScreen ast u = runScreen ast u ∧
    List.Sorted (· ≤ ·) (runScreen ast u) ∧
    (runScreen ast u).Perm ((evaluateEach ast u).map SymbolData.code) := by
  refine ⟨rfl, ?_, ?_⟩
  · unfold runScreen aggregate
    exact List.sorted_insertionSort _ _
  · unfold runScreen aggregate
    exact List.perm_insertionSort _ _

theorem filter_of_filter_ne {α : Type} [DecidableEq α] (p : α → Bool) (l : List α)
    (a : α) (ha : p a = false) :
    l.filter p = (l.filter fun x => decide (x ≠ a)).filter p := by
  rw [List.filter_filter]
  apply List.filter_congr
  intro x _
  by_cases hxa : x = a
  · subst hxa
    simp [ha]
  · simp [hxa]

/-- C6: a symbol whose bar window is shorter than the rule's longest
lookback fails with InsufficientHistory, its code is absent from the
run's result, and the run's result is unchanged when that symbol is
removed from the universe — exactly that symbol is excluded and no
other. -/
theorem C6_insufficient_history_excluded (ast : FExpr) (u : List SymbolData)
    (sd : SymbolData) (hmem : sd ∈ u)
    (hshort : sd.bars.length < maxLookback ast)
    (huniq : ∀ x ∈ u, x.code = sd.code → x = sd) :
    evalRule ast sd.bars = Except.error EvalErr.insufficientHistory ∧
    sd.code ∉ runScreen ast u ∧
    runScreen ast u = runScreen ast (u.filter fun x => decide (x ≠ sd)) := by
  have herr : evalRule ast sd.bars = Except.error .insufficientHistory := by
    rw [evalRule, if_pos hshort]
  have hkeep : keepSymbol ast sd = false := by
    rw [keepSymbol, herr]
  refine ⟨herr, ?_, ?_⟩
  · intro hmem2
    unfold runScreen aggregate at hmem2
    have hm : sd.code ∈ (evaluateEach ast u).map SymbolData.code :=
      (List.perm_insertionSort _ _).mem_iff.mp hmem2
    obtain ⟨x, hx, hcode⟩ := List.mem_map.mp hm
    have hxu : x ∈ u := List.mem_of_mem_filter hx
    have hxsd : x = sd := huniq x hxu hcode
    subst hxsd
    have hkx := List.of_mem_filter hx
    rw [hkeep] at hkx
    exact Bool.false_ne_true hkx
  · unfold runScreen aggregate evaluateEach
    rw [filter_of_filter_ne (keepSymbol ast) u sd hkeep]

/-- Witness for C6: with the rule MA(CLOSE, 3), the symbol 1 with a
2-bar window is rejected with InsufficientHistory and absent from the
run, while symbol 2 with a 3-bar window is unaffected. -/
theorem C6_insufficient_history_excluded_witness :
    evalRule (.ma .close 3) [⟨1, 1, 1⟩, ⟨1, 1, 1⟩]
      = Except.error EvalErr.insufficientHistory ∧
    (1 : ℕ) ∉ runScreen (.ma .close 3)
      [⟨1, [⟨1, 1, 1⟩, ⟨1, 1, 1⟩]⟩, ⟨2, [⟨1, 1, 1⟩, ⟨1, 1, 1⟩, ⟨1, 1, 1⟩]⟩] := by
  have h := C6_insufficient_history_excluded (.ma .close 3)
    [⟨1, [⟨1, 1, 1⟩, ⟨1, 1, 1⟩]⟩, ⟨2, [⟨1, 1, 1⟩, ⟨1, 1, 1⟩, ⟨1, 1, 1⟩]⟩]
    ⟨1, [⟨1, 1, 1⟩, ⟨1, 1, 1⟩]⟩ (by simp) (by decide)
    (by intro x hx hc; fin_cases hx <;> simp_all)
  exact ⟨h.1, h.2.1⟩

theorem sorted_split (a b : List ℕ) (h : List.Sorted (· < ·) (a ++ b)) :
    List.Sorted (· < ·) a ∧ List.Sorted (· < ·) b ∧ ∀ x ∈ a, ∀ y ∈ b, x < y := by
  rw [List.Sorted, List.pairwise_append] at h
  exact h

theorem sorted_le_getLast (p : List ℕ) (hp : List.Sorted (· < ·) p)
    (x : ℕ) (hx : x ∈ p) (h : p ≠ []) : x ≤ p.getLast h := by
  have hd := List.dropLast_append_getLast h
  rw [← hd] at hp hx
  rcases List.mem_append.mp hx with h1 | h2
  · exact le_of_lt ((sorted_split _ _ hp).2.2 x h1 _ (by simp))
  · simp only [List.mem_singleton] at h2
    exact le_of_eq h2

theorem sorted_take_lt_drop (b : List ℕ) (hb : List.Sorted (· < ·) b) (n : ℕ)
    (x : ℕ) (hx : x ∈ b.take n) (y : ℕ) (hy : y ∈ b.drop n) : x < y := by
  have hd := List.take_append_drop n b
  rw [← hd] at hb
  exact (sorted_split _ _ hb).2.2 x hx y hy

theorem filter_gt_of_split (a b : List ℕ) (x : ℕ)
    (hax : ∀ z ∈ a, z ≤ x) (hbx : ∀ y ∈ b, x < y) :
    (a ++ b).filter (fun y => decide (x < y)) = b := by
  rw [List.filter_append]
  have h1 : a.filter (fun y => decide (x < y)) = [] := by
    rw [List.filter_eq_nil_iff]
    intro z hz
    simpa using Nat.not_lt.mpr (hax z hz)
  have h2 : b.filter (fun y => decide (x < y)) = b := by
    rw [List.filter_eq_self]
    intro y hy
    simpa using hbx y hy
  rw [h1, h2, List.nil_append]

theorem fetchFrom_spec (r : List ℕ) (limit : ℕ) (hl : 1 ≤ limit)
    (hr : List.Sorted (· < ·) r) :
    ∀ (fuel : ℕ) (b a : List ℕ) (c : Option ℕ), r = a ++ b → b.length ≤ fuel →
      (match c with
       | none => a = []
       | some x => (∀ z ∈ a, z ≤ x) ∧ (∀ y ∈ b, x < y)) →
      fetchFrom r limit fuel c = b := by
  intro fuel
  induction fuel with
  | zero =>
    intro b a c _ hlen _
    have hb : b = [] := List.eq_nil_of_length_eq_zero (Nat.le_zero.mp hlen)
    simp [fetchFrom, hb]
  | succ fuel ih =>
    intro b a c hsplit hlen hc
    have hbsort : List.Sorted (· < ·) b := by
      rw [hsplit] at hr
      exact (sorted_split _ _ hr).2.1
    have hpage : pageAfter r c limit = b.take (min limit 50) := by
      cases c with
      | none =>
        simp only at hc
        subst hc
        simp only [List.nil_append] at hsplit
        simp [pageAfter, hsplit]
      | some x =>
        simp only [pageAfter, hsplit, filter_gt_of_split a b x hc.1 hc.2]
    by_cases hb : b = []
    · subst hb
      simp [fetchFrom, hpage]
    · have hlim : 1 ≤ min limit 50 := le_min hl (by norm_num)
      have hpne : b.take (min limit 50) ≠ [] := by
        intro hnil
        rcases List.take_eq_nil_iff.mp hnil with h | h
        · omega
        · exact hb h
      rw [fetchFrom]
      simp only [hpage]
      rw [dif_neg hpne]
      have hx2mem : (b.take (min limit 50)).getLast hpne ∈ b :=
        (List.take_sublist _ _).subset (List.getLast_mem hpne)
      have hsplit2 : r = (a ++ b.take (min limit 50)) ++ b.drop (min limit 50) := by
        rw [List.append_assoc, List.take_append_drop]
        exact hsplit
      have hlen2 : (b.drop (min limit 50)).length ≤ fuel := by
        rw [List.length_drop]
        have hb1 : 0 < b.length := List.length_pos.mpr hb
        omega
      have hcur : (∀ z ∈ a ++ b.take (min limit 50),
            z ≤ (b.take (min limit 50)).getLast hpne) ∧
          (∀ y ∈ b.drop (min limit 50),
            (b.take (min limit 50)).getLast hpne < y) := by
        constructor
        · intro z hz
          rcases List.mem_append.mp hz with hz | hz
          · cases c with
            | none =>
              simp only at hc
              subst hc
              simp at hz
            | some x =>
              exact le_trans (hc.1 z hz) (le_of_lt (hc.2 _ hx2mem))
          · exact sorted_le_getLast _ (hbsort.sublist (List.take_sublist _ _)) _ hz _
        · intro y hy
          exact sorted_take_lt_drop b hbsort _ _ (List.getLast_mem hpne) y hy
      rw [ih (b.drop (min limit 50)) (a ++ b.take (min limit 50)) _ hsplit2 hlen2 hcur]
      exact List.take_append_drop _ _

/-- C5: for a fixed, strictly code-ascending PickResult, retrieving it in
successive cursor pages (cursor = last emitted code) and concatenating
the pages reconstructs exactly the full ordered membership, and every
page respects the enforced cap of 50. -/
theorem C5_pagination_reconstructs (r : List ℕ) (limit : ℕ) (hl : 1 ≤ limit)
    (hr : List.Sorted (· < ·) r) :
    fetchAll r limit = r ∧ ∀ c, (pageAfter r c limit).length ≤ 50 := by
  constructor
  · exact fetchFrom_spec r limit hl hr (r.length + 1) r [] none rfl (by omega) rfl
  · intro c
    cases c <;> simp [pageAfter, List.length_take] <;> omega

/-- Witness for C5: the three-code result 1, 2, 3 paged with limit 2 is
reconstructed exactly, and its first page holds at most 50 codes. -/
theorem C5_pagination_reconstructs_witness :
    fetchAll [1, 2, 3] 2 = [1, 2, 3] ∧ (pageAfter [1, 2, 3] none 2).length ≤ 50 := by
  have h := C5_pagination_reconstructs [1, 2, 3] 2 (by norm_num) (by decide)
  exact ⟨h.1, h.2 none⟩

theorem inv_init (k : ℕ) : SysInv k initSys := by
  unfold SysInv initSys initRun
  simp

theorem swapSys_swapSys (s : Sys) : swapSys (swapSys s) = s := by
  cases s with
  | mk lock r0 r1 =>
    cases lock with
    | none => rfl
    | some b => cases b <;> rfl

theorem inv_swap (k : ℕ) (s : Sys) (h : SysInv k s) : SysInv k (swapSys s) := by
  obtain ⟨a0, a1, b0, b1, c0, c1⟩ := h
  refine ⟨?_, ?_, b1, b0, c1, c0⟩
  · cases hl : s.lock with
    | none =>
      rw [hl] at a1
      constructor
      · intro hfalse
        exact absurd hfalse (by simp [swapSys, hl])
      · intro hrhs
        exact absurd (a1.mpr hrhs) (by simp)
    | some b =>
      rw [hl] at a1
      cases b
      · constructor
        · intro hfalse
          exact absurd hfalse (by simp [swapSys, hl])
        · intro hrhs
          exact absurd (a1.mpr hrhs) (by simp)
      · constructor
        · intro _
          exact a1.mp rfl
        · intro _
          simp [swapSys, hl]
  · cases hl : s.lock with
    | none =>
      rw [hl] at a0
      constructor
      · intro hfalse
        exact absurd hfalse (by simp [swapSys, hl])
      · intro hrhs
        exact absurd (a0.mpr hrhs) (by simp)
    | some b =>
      rw [hl] at a0
      cases b
      · constructor
        · intro _
          exact a0.mp rfl
        · intro _
          simp [swapSys, hl]
      · constructor
        · intro hfalse
          exact absurd hfalse (by simp [swapSys, hl])
        · intro hrhs
          exact absurd (a0.mpr hrhs) (by simp)

theorem inv_step0 (k : ℕ) (s : Sys) (h : SysInv k s) : SysInv k (step0 k s) := by
  obtain ⟨a0, a1, b0, b1, c0, c1⟩ := h
  by_cases hcf : s.r0.conflicted = true
  · have hs : step0 k s = s := by simp [step0, hcf]
    rw [hs]
    exact ⟨a0, a1, b0, b1, c0, c1⟩
  · rw [Bool.not_eq_true] at hcf
    by_cases hp0 : s.r0.pc = 0
    · cases hl : s.lock with
      | none =>
        have hs : step0 k s =
            ⟨some false, ⟨1, s.r0.conflicted, s.r0.writes⟩, s.r1⟩ := by
          simp [step0, hcf, hp0, hl]
        rw [hs]
        rw [hl] at a1
        unfold SysInv
        dsimp only
        refine ⟨?_, ?_, ?_, ?_, ?_, c1⟩
        · rw [hcf]
          simp
        · constructor
          · intro hfalse
            simp at hfalse
          · intro hrhs
            exact absurd (a1.mpr hrhs) (by simp)
        · intro hcon
          rw [hcf] at hcon
          simp at hcon
        · intro hcon
          have hb := b1 hcon
          omega
        · intro hzero
          simp at hzero
      | some w =>
        have hs : step0 k s =
            ⟨s.lock, ⟨s.r0.pc, true, s.r0.writes⟩, s.r1⟩ := by
          simp [step0, hcf, hp0, hl]
        have hw : w = true := by
          cases w
          · exfalso
            rw [hl] at a0
            have := (a0.mp rfl).2.1
            omega
          · rfl
        subst hw
        rw [hl] at a0 a1
        have hr1 := a1.mp rfl
        rw [hs]
        unfold SysInv
        dsimp only
        refine ⟨?_, ?_, ?_, ?_, ?_, c1⟩
        · rw [hl]
          constructor
          · intro hfalse
            simp at hfalse
          · intro hrhs
            simp at hrhs
        · rw [hl]
          simpa using hr1
        · intro _
          exact ⟨hp0, c0 hp0, hr1.1, hr1.2.1⟩
        · intro hcon
          exact absurd hcon (by simp [hr1.1])
        · intro _
          exact c0 hp0
    · by_cases hpk : s.r0.pc ≤ k
      · have hs : step0 k s =
            ⟨s.lock, ⟨s.r0.pc + 1, s.r0.conflicted, s.r0.writes + 1⟩, s.r1⟩ := by
          simp [step0, hcf, hp0, hpk]
        have hl : s.lock = some false := a0.mpr ⟨hcf, by omega, by omega⟩
        rw [hs]
        unfold SysInv
        dsimp only
        refine ⟨?_, ?_, ?_, ?_, ?_, c1⟩
        · rw [hl, hcf]
          simp
          omega
        · rw [hl]
          rw [hl] at a1
          constructor
          · intro hfalse
            simp at hfalse
          · intro hrhs
            exact absurd (a1.mpr hrhs) (by simp)
        · intro hcon
          rw [hcf] at hcon
          simp at hcon
        · intro hcon
          have hb := b1 hcon
          exact ⟨hb.1, hb.2.1, hcf, by omega⟩
        · intro hzero
          simp at hzero
      · by_cases hpk1 : s.r0.pc = k + 1
        · have hs : step0 k s =
              ⟨none, ⟨s.r0.pc + 1, s.r0.conflicted, s.r0.writes⟩, s.r1⟩ := by
            simp [step0, hcf, hp0, hpk, hpk1]
          have hl : s.lock = some false := a0.mpr ⟨hcf, by omega, by omega⟩
          rw [hs]
          rw [hl] at a1
          unfold SysInv
          dsimp only
          refine ⟨?_, ?_, ?_, ?_, ?_, c1⟩
          · constructor
            · intro hfalse
              simp at hfalse
            · rintro ⟨-, -, hle⟩
              omega
          · constructor
            · intro hfalse
              simp at hfalse
            · intro hrhs
              exact absurd (a1.mpr hrhs) (by simp)
          · intro hcon
            rw [hcf] at hcon
            simp at hcon
          · intro hcon
            have hb := b1 hcon
            exact ⟨hb.1, hb.2.1, hcf, by omega⟩
          · intro hzero
            simp at hzero
        · have hs : step0 k s = s := by
            simp [step0, hcf, hp0, hpk, hpk1]
          rw [hs]
          exact ⟨a0, a1, b0, b1, c0, c1⟩

theorem inv_stepRun (k : ℕ) (w : Bool) (s : Sys) (h : SysInv k s) :
    SysInv k (stepRun k w s) := by
  cases w
  · exact inv_step0 k s h
  · exact inv_swap k _ (inv_step0 k _ (inv_swap k s h))

theorem inv_exec (k : ℕ) (sched : List Bool) (s : Sys) (h : SysInv k s) :
    SysInv k (exec k sched s) := by
  induction sched generalizing s with
  | nil => exact h
  | cons w ws ih => exact ih _ (inv_stepRun k w s h)

/-- C7: under every interleaving of two lock-guarded pipeline
invocations, at most one run is ever between acquire and release (at
most one full pipeline run executes at any time); the two runs never
both observe ConcurrentRunConflict, so when one of two simultaneous runs
conflicts the other is the only one that can complete; and a conflicted
run exits immediately at its first step having performed no writes. -/
theorem C7_single_run_lock (k : ℕ) (sched : List Bool) :
    ¬((exec k sched initSys).r0.conflicted = true ∧
      (exec k sched initSys).r1.conflicted = true) ∧
    ((exec k sched initSys).r0.conflicted = true →
      (exec k sched initSys).r0.pc = 0 ∧ (exec k sched initSys).r0.writes = 0) ∧
    ((exec k sched initSys).r1.conflicted = true →
      (exec k sched initSys).r1.pc = 0 ∧ (exec k sched initSys).r1.writes = 0) ∧
    ((exec k sched initSys).r0.conflicted = true →
      ((exec k sched initSys).r1.pc = k + 2 ∨
        (exec k sched initSys).r1.conflicted = true) →
      (exec k sched initSys).r1.pc = k + 2) ∧
    ¬(((exec k sched initSys).r0.conflicted = false ∧
        1 ≤ (exec k sched initSys).r0.pc ∧
        (exec k sched initSys).r0.pc ≤ k + 1) ∧
      ((exec k sched initSys).r1.conflicted = false ∧
        1 ≤ (exec k sched initSys).r1.pc ∧
        (exec k sched initSys).r1.pc ≤ k + 1)) := by
  obtain ⟨a0, a1, b0, b1, c0, c1⟩ := inv_exec k sched initSys (inv_init k)
  refine ⟨?_, ?_, ?_, ?_, ?_⟩
  · rintro ⟨h0, h1⟩
    exact absurd h1 (by simp [(b0 h0).2.2.1])
  · intro h0
    exact ⟨(b0 h0).1, (b0 h0).2.1⟩
  · intro h1
    exact ⟨(b1 h1).1, (b1 h1).2.1⟩
  · intro h0 hfin
    rcases hfin with h | h
    · exact h
    · exact absurd h (by simp [(b0 h0).2.2.1])
  · rintro ⟨h0, h1⟩
    have e0 := a0.mpr h0
    have e1 := a1.mpr h1
    rw [e0] at e1
    simp at e1

/-- Witness for C7: with one write per run and the schedule where run 1
acquires first and run 0 then attempts the lock, run 0 observes the
conflict and stops at its first step with no writes. -/
theorem C7_single_run_lock_witness :
    (exec 1 [true, false] initSys).r0.pc = 0 ∧
    (exec 1 [true, false] initSys).r0.writes = 0 :=
  (C7_single_run_lock 1 [true, false]).2.1 (by decide)

/-- C8: querying picks for a trade date with no PickResult yet returns
the empty well-formed result, never an error, so a consumer can
distinguish not-yet-computed from failed. -/
theorem C8_missing_result_empty_ok (store : ℕ → Option (List ℕ)) (d : ℕ)
    (h : store d = none) :
    picksQuery store d = .ok [] ∧ ∀ m, picksQuery store d ≠ .err m := by
  refine ⟨by simp [picksQuery, h], fun m => by simp [picksQuery, h]⟩

/-- Witness for C8: a store with no result table for 2025-12-29 answers
the empty ok list. -/
theorem C8_missing_result_empty_ok_witness :
    picksQuery (fun _ => none) 20251229 = .ok [] :=
  (C8_missing_result_empty_ok (fun _ => none) 20251229 rfl).1

/-- C9: the coercion helper n of KlineMultiPanel.vue is total: it returns
null exactly when the input is null, undefined, or coerces to a non-finite
number, and otherwise returns that finite number; consequently every
indicator series array built from it contains only finite numbers or
null, never NaN. -/
theorem C9_panelN_total_finite :
    (∀ v : JsVal, panelN v = none ↔
      (v = .vnull ∨ v = .vundefined ∨ (jsNumber v).isFinite = false)) ∧
    (∀ (v : JsVal) (q : ℚ), panelN v = some q ↔ v = .vnum (.finite q)) ∧
    (∀ l : List JsVal, ∀ y ∈ seriesOf l,
      y = none ∨ ∃ q : ℚ, y = some q ∧ (JsNum.finite q).isFinite = true) := by
  refine ⟨?_, ?_, ?_⟩
  · intro v
    cases v with
    | vnull => simp [panelN]
    | vundefined => simp [panelN]
    | vnum x => cases x <;> simp [panelN, jsNumber, JsNum.isFinite]
  · intro v q
    cases v with
    | vnull => simp [panelN]
    | vundefined => simp [panelN]
    | vnum x => cases x <;> simp [panelN]
  · intro l y hy
    rw [seriesOf, List.mem_map] at hy
    obtain ⟨v, _, rfl⟩ := hy
    cases h : panelN v with
    | none => exact Or.inl rfl
    | some q => exact Or.inr ⟨q, rfl, rfl⟩

/-- Witness for C9: null coerces to null, the finite 3 passes through,
and the element the helper builds from 3 in a series is a finite number
or null. -/
theorem C9_panelN_total_finite_witness :
    panelN .vnull = none ∧ panelN (.vnum (.finite 3)) = some 3 ∧
    ((some 3 : Option ℚ) = none ∨
      ∃ q : ℚ, (some 3 : Option ℚ) = some q ∧ (JsNum.finite q).isFinite = true) := by
  obtain ⟨h1, h2, h3⟩ := C9_panelN_total_finite
  refine ⟨(h1 .vnull).mpr (Or.inl rfl), (h2 (.vnum (.finite 3)) 3).mpr rfl,
    h3 [.vnum (.finite 3)] (some 3) ?_⟩
  simp [seriesOf, panelN]

/-- C10: the snapshot of StockChartCard.vue divides by the previous close
only when both closes are finite and the previous close is nonzero; in
every other case the pct field falls back to the server-supplied
pct_change value, so the displayed percent change is never produced by a
division by zero. -/
theorem C10_snapPct_guarded (d : List KPoint) :
    (((cardN (kfield (lastBar d) KPoint.close)).isFinite = false ∨
      (cardN (kfield (prevBar d) KPoint.close)).isFinite = false ∨
      cardN (kfield (prevBar d) KPoint.close) = .finite 0) →
        snapPct d = cardN (kfield (lastBar d) KPoint.pctChange)) ∧
    (∀ c q : ℚ, cardN (kfield (lastBar d) KPoint.close) = .finite c →
      cardN (kfield (prevBar d) KPoint.close) = .finite q → q ≠ 0 →
      snapPct d = .finite ((c - q) / q * 100) ∧ (snapPct d).isFinite = true) := by
  constructor
  · intro h
    rcases h with h | h | h <;> simp [snapPct, h]
  · intro c q hc hq hq0
    have hpct : snapPct d = .finite ((c - q) / q * 100) := by
      simp [snapPct, snapChange, hc, hq, hq0, JsNum.sub, JsNum.div, JsNum.mul,
        JsNum.isFinite]
    exact ⟨hpct, by rw [hpct]; rfl⟩

/-- Witness for C10: on a concrete two-bar series with closes 10 and 11
the pct field is the recomputed (11 - 10) / 10 * 100 = 10 percent, and on
a series whose previous close is 0 it falls back to the server value. -/
theorem C10_snapPct_guarded_witness :
    snapPct [⟨.vnum (.finite 10), .vnull, .vnull⟩, ⟨.vnum (.finite 11), .vnull, .vnull⟩]
      = .finite 10 ∧
    snapPct [⟨.vnum (.finite 0), .vnull, .vnull⟩,
             ⟨.vnum (.finite 11), .vnull, .vnum (.finite 7)⟩] = .finite 7 := by
  constructor
  · have h := (C10_snapPct_guarded
      [⟨.vnum (.finite 10), .vnull, .vnull⟩, ⟨.vnum (.finite 11), .vnull, .vnull⟩]).2
      11 10 rfl rfl (by norm_num)
    rw [h.1]
    norm_num
  · have h := (C10_snapPct_guarded
      [⟨.vnum (.finite 0), .vnull, .vnull⟩,
       ⟨.vnum (.finite 11), .vnull, .vnum (.finite 7)⟩]).1
      (Or.inr (Or.inr rfl))
    rw [h]
    rfl

end HQ
